import Mathlib

/-
Shallow embedding of the control core of the BybitGo trading bot.

Numeric values that Go stores in float64 are modelled as exact rationals
(the constants 0.25, 0.3, 1.2, ... become 1/4, 3/10, 6/5, ...); real-valued
results that involve a square root (Pearson correlation) live in ℝ.
Go maps are modelled as functions into Option, Go slices as lists, and a
Go runtime panic (out-of-range slice index) as Option.none.

Sources embedded here:
  - internal/strategy (StrategyAI): regime-driven strategy weights and selection
  - internal/market (MarketAnalyzer): regime classification, correlations,
    diversification score
  - internal/portfolio (PortfolioManager): performance / volatility allocation
  - cmd/bot/main.go (runTradingCycle): per-symbol failure isolation
  - the risk.CircuitBreaker, whose implementation file is not part of the
    sources at hand, is modelled from the specification's Call protocol.
-/

/-! ## Market regime and strategy weights (internal/strategy, internal/market) -/

/-- MarketRegime from internal/market: three categorical string fields. -/
structure MarketRegime where
  volatility : String
  trend : String
  volume : String
deriving DecidableEq

/-- The four strategy identifiers of StrategyAI. -/
inductive StrategyType where
  | marketMaking
  | momentum
  | meanReversion
  | volatilityBreakout
deriving DecidableEq, Fintype

/-- The strategy-to-weight map of calculateStrategyWeights, with one field per
strategy key. -/
structure Weights where
  mm : ℚ
  mom : ℚ
  mr : ℚ
  vb : ℚ
deriving DecidableEq

/-- Lookup in the weight map by strategy key. -/
def Weights.get (w : Weights) : StrategyType → ℚ
  | .marketMaking => w.mm
  | .momentum => w.mom
  | .meanReversion => w.mr
  | .volatilityBreakout => w.vb

/-- Base weights 0.25 each (calculateStrategyWeights, first block). -/
def baseWeights : Weights := ⟨1/4, 1/4, 1/4, 1/4⟩

/-- The switch on regime.Volatility in calculateStrategyWeights. -/
def afterVolatility (r : MarketRegime) (w : Weights) : Weights :=
  if r.volatility = "high_volatility" then
    { w with vb := w.vb + 3/10, mm := w.mm - 1/10, mom := w.mom + 1/10, mr := w.mr - 3/10 }
  else if r.volatility = "low_volatility" then
    { w with mr := w.mr + 3/10, mm := w.mm + 1/10, mom := w.mom - 1/10, vb := w.vb - 3/10 }
  else w

/-- The switch on regime.Trend in calculateStrategyWeights. -/
def afterTrend (r : MarketRegime) (w : Weights) : Weights :=
  if r.trend = "trending_up" ∨ r.trend = "trending_down" then
    { w with mom := w.mom + 4/10, mm := w.mm - 2/10, mr := w.mr - 2/10 }
  else if r.trend = "ranging" then
    { w with mr := w.mr + 4/10, mm := w.mm + 1/10, mom := w.mom - 3/10, vb := w.vb - 2/10 }
  else w

/-- The switch on regime.Volume in calculateStrategyWeights. -/
def afterVolume (r : MarketRegime) (w : Weights) : Weights :=
  if r.volume = "high_volume" then
    { w with mom := w.mom + 2/10, vb := w.vb + 2/10, mm := w.mm - 2/10, mr := w.mr - 2/10 }
  else if r.volume = "low_volume" then
    { w with mm := w.mm + 3/10, mr := w.mr + 1/10, mom := w.mom - 2/10, vb := w.vb - 2/10 }
  else w

/-- The weight map after the three regime switches, before normalization. -/
def rawWeights (r : MarketRegime) : Weights :=
  afterVolume r (afterTrend r (afterVolatility r baseWeights))

/-- Sum of the four weights (the total of the normalization loop). -/
def weightsTotal (w : Weights) : ℚ :=
  w.mm + w.mom + w.mr + w.vb

/-- calculateStrategyWeights from internal/strategy: base weights, the three
regime switches, then normalization by the total when it is positive. -/
def calculateStrategyWeights (r : MarketRegime) : Weights :=
  let w := rawWeights r
  let total := weightsTotal w
  if 0 < total then
    ⟨w.mm / total, w.mom / total, w.mr / total, w.vb / total⟩
  else w

/-- The selection loop of SelectStrategy: scan strategies in map-iteration
order, keeping the first entry whose weight strictly exceeds the best so far.
The accumulator starts at (MarketMaking, 0.0) as in the source. -/
def selectLoop (w : Weights) : List StrategyType → StrategyType × ℚ → StrategyType × ℚ
  | [], best => best
  | s :: rest, best =>
      selectLoop w rest (if w.get s > best.2 then (s, w.get s) else best)

/-- SelectStrategy's choice, parameterized by the map-iteration order
(Go iterates a map in unspecified order). -/
def selectStrategy (order : List StrategyType) (w : Weights) : StrategyType :=
  (selectLoop w order (StrategyType.marketMaking, 0)).1

/-- The canonical enumeration of the four strategies, used to say that an
iteration order visits every key exactly once. -/
def allStrategies : List StrategyType :=
  [.marketMaking, .momentum, .meanReversion, .volatilityBreakout]

/-! ## Market data and regime classification (internal/market) -/

/-- One candle of an OHLCV series (decimal fields read via Float64()). -/
structure Kline where
  high : ℚ
  low : ℚ
  close : ℚ
  volume : ℚ
deriving DecidableEq

/-- MarketData: a symbol together with its kline series. -/
structure MarketData where
  symbol : String
  kline : List Kline
deriving DecidableEq

/-- The accumulation loop of simpleVolatility: over consecutive pairs
(previous, current), add the absolute relative change and bump the count
whenever the previous price is nonzero. -/
def svLoop : List (ℚ × ℚ) → ℚ × ℕ
  | [] => (0, 0)
  | (a, b) :: rest =>
      let sc := svLoop rest
      if a ≠ 0 then (sc.1 + |(b - a) / a|, sc.2 + 1) else sc

/-- simpleVolatility from internal/market: mean absolute relative change over
consecutive prices, skipping pairs whose previous price is zero. -/
def simpleVolatility (prices : List ℚ) : ℚ :=
  if prices.length < 2 then 0
  else
    let sc := svLoop (prices.zip prices.tail)
    if sc.2 = 0 then 0 else sc.1 / (sc.2 : ℚ)

/-- Specification-side measure: the mean absolute relative price change of a
series, i.e. the average of |(p i+1 - p i) / p i| over consecutive bars. -/
def meanAbsRelChange (xs : List ℚ) : ℚ :=
  if xs.length < 2 then 0
  else ((xs.zip xs.tail).map fun p => |(p.2 - p.1) / p.1|).sum / ((xs.length : ℚ) - 1)

/-- VolatilityData from internal/market. -/
structure VolatilityData where
  symbol : String
  recentVolatility : ℚ
  longTermVolatility : ℚ
  volatilityRegime : String
deriving DecidableEq

/-- calculateVolatility from internal/market. The source guards only
len(prices) < 2 and then slices prices[len-10:]; for 2 ≤ len ≤ 9 that slice
index is negative and the Go program panics, modelled here as none. -/
def calculateVolatility (d : MarketData) : Option VolatilityData :=
  let prices := d.kline.map fun k => (k.high + k.low) / 2
  if prices.length < 2 then
    some ⟨d.symbol, 0, 0, "low"⟩
  else if prices.length < 10 then
    none
  else
    let recentVol := simpleVolatility (prices.drop (prices.length - 10))
    let longVol := simpleVolatility prices
    let regime :=
      if recentVol > longVol * (6/5) then "high"
      else if recentVol < longVol * (4/5) then "low"
      else "medium"
    some ⟨d.symbol, recentVol, longVol, regime⟩

/-- linearRegressionSlope from internal/market: the least-squares slope of the
values against their indices, written with the running-sum formula of the
source; returns 0 when the denominator vanishes. -/
def linearRegressionSlope (values : List ℚ) : ℚ :=
  if values.length < 2 then 0
  else
    let n : ℚ := values.length
    let sumX := ∑ i ∈ Finset.range values.length, (i : ℚ)
    let sumY := ∑ i ∈ Finset.range values.length, values.getD i 0
    let sumXY := ∑ i ∈ Finset.range values.length, (i : ℚ) * values.getD i 0
    let sumXX := ∑ i ∈ Finset.range values.length, (i : ℚ) * (i : ℚ)
    let num := n * sumXY - sumX * sumY
    let den := n * sumXX - sumX * sumX
    if den = 0 then 0 else num / den

/-- Specification-side measure: the ordinary-least-squares slope written in
centered form, covariance over variance of the index sequence. -/
def olsSlope (ys : List ℚ) : ℚ :=
  if ys.length < 2 then 0
  else
    let n : ℚ := ys.length
    let xbar := (∑ i ∈ Finset.range ys.length, (i : ℚ)) / n
    let ybar := (∑ i ∈ Finset.range ys.length, ys.getD i 0) / n
    (∑ i ∈ Finset.range ys.length, ((i : ℚ) - xbar) * (ys.getD i 0 - ybar)) /
      (∑ i ∈ Finset.range ys.length, ((i : ℚ) - xbar) * ((i : ℚ) - xbar))

/-- TrendData from internal/market. -/
structure TrendData where
  symbol : String
  trendStrength : ℚ
  trendDirection : String
  adx : ℚ
deriving DecidableEq

/-- calculateTrend from internal/market: slope thresholds at ±0.001, strength
capped at 0.05 and scaled to [0, 1]. -/
def calculateTrend (d : MarketData) : TrendData :=
  let closes := d.kline.map fun k => k.close
  if closes.length < 2 then ⟨d.symbol, 0, "sideways", 0⟩
  else
    let slope := linearRegressionSlope closes
    let direction :=
      if slope > 1/1000 then "up"
      else if slope < -(1/1000) then "down"
      else "sideways"
    let strength := |slope|
    let capped := if strength > 1/20 then (1/20 : ℚ) else strength
    ⟨d.symbol, capped / (1/20), direction, 0⟩

/-- VolumeProfile from internal/market. -/
structure VolumeProfile where
  symbol : String
  currentVolume : ℚ
  averageVolume : ℚ
  volumeRatio : ℚ
  volumeTrend : String
deriving DecidableEq

/-- calculateVolumeProfile from internal/market: latest volume over the series
average, defaulting the quotient to 1 when the average is not positive. -/
def calculateVolumeProfile (d : MarketData) : VolumeProfile :=
  let volumes := d.kline.map fun k => k.volume
  let totalVolume := volumes.sum
  if volumes.length = 0 then ⟨d.symbol, 0, 0, 0, "stable"⟩
  else
    let currentVolume := volumes.getD (volumes.length - 1) 0
    let averageVolume := totalVolume / (volumes.length : ℚ)
    let ratio := if averageVolume > 0 then currentVolume / averageVolume else 1
    let trend :=
      if ratio > 6/5 then "increasing"
      else if ratio < 4/5 then "decreasing"
      else "stable"
    ⟨d.symbol, currentVolume, averageVolume, ratio, trend⟩

/-- determineVolatilityRegime: append the suffix to the category. -/
def determineVolatilityRegime (v : VolatilityData) : String :=
  v.volatilityRegime ++ "_volatility"

/-- determineTrendRegime: map the direction to a regime string. -/
def determineTrendRegime (t : TrendData) : String :=
  if t.trendDirection = "up" then "trending_up"
  else if t.trendDirection = "down" then "trending_down"
  else "ranging"

/-- determineVolumeRegime: map the volume trend to a regime string. -/
def determineVolumeRegime (v : VolumeProfile) : String :=
  if v.volumeTrend = "increasing" then "high_volume"
  else if v.volumeTrend = "decreasing" then "low_volume"
  else "normal_volume"

/-- AnalyzeMarketConditions from internal/market: volatility is computed first,
so its panic (none) aborts the whole analysis; otherwise the three regime
fields are assembled. -/
def AnalyzeMarketConditions (d : MarketData) : Option MarketRegime :=
  match calculateVolatility d with
  | none => none
  | some v =>
      some ⟨determineVolatilityRegime v,
            determineTrendRegime (calculateTrend d),
            determineVolumeRegime (calculateVolumeProfile d)⟩

/-- A two-bar series: enough data to pass the len < 2 guard, short enough to
make the prices[len-10:] slice index negative. -/
def twoBarData : MarketData :=
  ⟨"BTCUSDT", [⟨2, 1, 1, 5⟩, ⟨3, 2, 2, 6⟩]⟩

/-- An empty series (the guarded early-return path). -/
def emptyData : MarketData :=
  ⟨"BTCUSDT", []⟩

/-- A ten-bar rising series with a volume spike on the last bar. -/
def tenBarData : MarketData :=
  ⟨"BTCUSDT",
   [⟨1, 1, 1, 1⟩, ⟨2, 2, 2, 1⟩, ⟨3, 3, 3, 1⟩, ⟨4, 4, 4, 1⟩, ⟨5, 5, 5, 1⟩,
    ⟨6, 6, 6, 1⟩, ⟨7, 7, 7, 1⟩, ⟨8, 8, 8, 1⟩, ⟨9, 9, 9, 1⟩, ⟨10, 10, 10, 100⟩]⟩

/-! ## Correlation tracker (internal/market) -/

/-- The correlation matrix: a nested string map into real values; a missing
entry is none. -/
def CorrMat : Type := String → String → Option ℝ

/-- Write one matrix entry. -/
def matSet (m : CorrMat) (a b : String) (v : ℝ) : CorrMat :=
  fun x y => if x = a then (if y = b then some v else m x y) else m x y

/-- The mean of the first n entries of a series (the meanX / meanY locals of
pearsonCorrelation, with n the common length). -/
def seriesMean (n : ℕ) (x : List ℚ) : ℚ :=
  (∑ i ∈ Finset.range n, x.getD i 0) / (n : ℚ)

/-- The accumulation loop of pearsonCorrelation: the sum of products of
centered entries. With x = y this is denomX / denomY, with x ≠ y the
numerator. -/
def centeredProd (n : ℕ) (x y : List ℚ) : ℚ :=
  ∑ i ∈ Finset.range n, (x.getD i 0 - seriesMean n x) * (y.getD i 0 - seriesMean n y)

/-- pearsonCorrelation from internal/market: 0 for mismatched lengths, fewer
than two points, or a vanishing deviation; otherwise the centered product sum
over the square root of the product of squared deviations. -/
noncomputable def pearsonCorrelation (x y : List ℚ) : ℝ :=
  if x.length ≠ y.length ∨ x.length < 2 then 0
  else if centeredProd x.length x x = 0 ∨ centeredProd x.length y y = 0 then 0
  else (centeredProd x.length x y : ℝ) /
    Real.sqrt ((centeredProd x.length x x : ℝ) * (centeredProd x.length y y : ℝ))

/-- calculateCorrelation from internal/market: 0 if either symbol lacks
history; otherwise trim both histories to the overlapping suffix of the
shorter length and take the Pearson correlation (0 below 2 points). -/
noncomputable def calculateCorrelation (hist : String → Option (List ℚ)) (s1 s2 : String) : ℝ :=
  match hist s1, hist s2 with
  | some p1, some p2 =>
      let minLen := min p1.length p2.length
      if minLen < 2 then 0
      else pearsonCorrelation (p1.drop (p1.length - minLen)) (p2.drop (p2.length - minLen))
  | _, _ => 0

/-- The value CalculateCorrelations stores at a pair: 1 on the diagonal,
otherwise the pairwise correlation. -/
noncomputable def corrVal (hist : String → Option (List ℚ)) (a b : String) : ℝ :=
  if a = b then 1 else calculateCorrelation hist a b

/-- The inner loop of CalculateCorrelations over the enumerated symbols: on
the diagonal (equal indices) store 1, otherwise store the correlation at both
symmetric positions. -/
noncomputable def corrInnerLoop (hist : String → Option (List ℚ)) (s1 : String) (i : ℕ) :
    List (ℕ × String) → CorrMat → CorrMat
  | [], m => m
  | (j, s2) :: rest, m =>
      let m2 :=
        if i = j then matSet m s1 s2 1
        else
          let c := calculateCorrelation hist s1 s2
          matSet (matSet m s1 s2 c) s2 s1 c
      corrInnerLoop hist s1 i rest m2

/-- The outer loop of CalculateCorrelations over the enumerated symbols. -/
noncomputable def corrOuterLoop (hist : String → Option (List ℚ)) (allSyms : List (ℕ × String)) :
    List (ℕ × String) → CorrMat → CorrMat
  | [], m => m
  | (i, s1) :: rest, m =>
      corrOuterLoop hist allSyms rest (corrInnerLoop hist s1 i allSyms m)

/-- CalculateCorrelations from internal/market, with the symbol list (the
map-iteration order of PriceHistory) passed explicitly; the matrix is rebuilt
from empty. -/
noncomputable def CalculateCorrelations (hist : String → Option (List ℚ))
    (symbols : List String) : CorrMat :=
  corrOuterLoop hist symbols.enum symbols.enum (fun _ _ => none)

/-- Matrix lookup as GetDiversificationScore performs it: a missing row or
entry counts as correlation 0. -/
def lookupCorr (m : CorrMat) (a b : String) : ℝ :=
  (m a b).getD 0

/-- The index pairs i < j of the double loop of GetDiversificationScore,
materialized as ordered symbol pairs. -/
def offDiagPairs : List String → List (String × String)
  | [] => []
  | x :: rest => (rest.map fun y => (x, y)) ++ offDiagPairs rest

/-- GetDiversificationScore from internal/market: 1 for at most one symbol;
otherwise one minus the average absolute pairwise correlation (1 if the pair
count is zero). -/
noncomputable def GetDiversificationScore (m : CorrMat) (symbols : List String) : ℝ :=
  if symbols.length ≤ 1 then 1
  else
    let pairs := offDiagPairs symbols
    let total := (pairs.map fun p => |lookupCorr m p.1 p.2|).sum
    let count := pairs.length
    if count = 0 then 1 else 1 - total / (count : ℝ)

/-- A concrete two-symbol price history used to instantiate the correlation
theorems. -/
def pairHistory : String → Option (List ℚ) :=
  fun s => if s = "A" then some [1, 2] else if s = "B" then some [2, 1] else none

/-! ## Circuit breaker (risk.CircuitBreaker)

Modelled from the spec: the implementation file of risk.CircuitBreaker is not
among the sources at hand (cmd/bot/main.go only constructs it with
NewCircuitBreaker(10s, 5) and wraps calls); the definitions below follow the
specification's Call protocol for the states closed, open and half-open. -/

/-- Circuit breaker states. -/
inductive CBState where
  | closed
  | opened
  | halfOpen
deriving DecidableEq

/-- Modelled from the spec: CircuitBreakerState with failure count, timestamp
of the last failure, timeout and failure threshold. Timestamps are integers. -/
structure CircuitBreaker where
  state : CBState
  failureCount : ℕ
  lastFailure : ℤ
  timeout : ℤ
  failureThreshold : ℕ
deriving DecidableEq

/-- Modelled from the spec: a fresh breaker starts closed with zero failures. -/
def NewCircuitBreaker (timeout : ℤ) (threshold : ℕ) : CircuitBreaker :=
  ⟨.closed, 0, 0, timeout, threshold⟩

/-- The observable outcome of one Call: the updated breaker, whether the
wrapped operation was invoked, whether CircuitOpenError was returned, and
whether the operation's own error was propagated. -/
structure CallResult where
  cb : CircuitBreaker
  opInvoked : Bool
  circuitOpenError : Bool
  opError : Bool
deriving DecidableEq

/-- Modelled from the spec: the Call protocol. Step 1 moves an expired open
breaker to half-open; step 2 fails fast while open without invoking the
operation; otherwise the operation runs (opFails is its result) and steps 4-5
update the state, failure count and failure timestamp. -/
def CircuitBreaker.call (cb : CircuitBreaker) (now : ℤ) (opFails : Bool) : CallResult :=
  let st := if cb.state = .opened ∧ now - cb.lastFailure > cb.timeout then .halfOpen else cb.state
  if st = .opened then
    ⟨{ cb with state := st }, false, true, false⟩
  else if st = .halfOpen then
    if opFails then
      ⟨{ cb with state := .opened, lastFailure := now }, true, false, true⟩
    else
      ⟨{ cb with state := .closed, failureCount := 0 }, true, false, false⟩
  else
    if opFails then
      let fc := cb.failureCount + 1
      let st2 := if cb.failureThreshold ≤ fc then CBState.opened else CBState.closed
      ⟨{ cb with state := st2, failureCount := fc, lastFailure := now }, true, false, true⟩
    else
      ⟨{ cb with failureCount := 0 }, true, false, false⟩

/-- Fold a sequence of timestamped failing calls through the breaker. -/
def failCalls (cb : CircuitBreaker) (ts : List ℤ) : CircuitBreaker :=
  ts.foldl (fun c t => (c.call t true).cb) cb

/-! ## Trading cycle failure isolation (cmd/bot/main.go, runTradingCycle) -/

/-- The per-symbol observable effects of one trading cycle: which symbols got
a fetch-failure warning, were analyzed (step 2), had a strategy selected
(step 6), were executed, logged (step 7) and had their performance updated
(step 8). -/
structure CycleEffects where
  fetchWarnings : List String
  analyzed : List String
  selections : List (String × StrategyType)
  executed : List String
  tradesLogged : List String
  perfUpdated : List String
deriving DecidableEq

/-- The marketData map built by step 2 of runTradingCycle: per symbol, a
failed (circuit-breaker wrapped) fetch logs a warning and skips the symbol
with continue; a successful fetch stores the data. -/
def fetchLoop (symbols : List String) (fetch : String → Option MarketData) :
    List (String × MarketData) :=
  symbols.filterMap fun s => (fetch s).map fun d => (s, d)

/-- runTradingCycle steps 2 and 6-8, tracking which symbols each step touches.
Step 2 analyzes exactly the successfully fetched symbols; step 6 selects a
strategy for every symbol of the portfolio (selectFor abstracts
StrategyAI.SelectStrategy, and the Strategies map has an implementation for
all four types); step 7 skips symbols without marketData and otherwise
executes, logs the trade and records performance; step 8 updates performance
for the symbols recorded in step 7. -/
def runCycleEffects (symbols : List String) (fetch : String → Option MarketData)
    (selectFor : String → StrategyType) : CycleEffects :=
  let marketData := fetchLoop symbols fetch
  let withData := symbols.filter fun s => (List.lookup s marketData).isSome
  { fetchWarnings := symbols.filter fun s => (fetch s).isNone
    analyzed := marketData.map fun p => p.1
    selections := symbols.map fun s => (s, selectFor s)
    executed := withData
    tradesLogged := withData
    perfUpdated := withData }

/-- A fetch oracle where symbol A fails and symbol B succeeds. -/
def fetchAB : String → Option MarketData :=
  fun s => if s = "B" then some ⟨"B", []⟩ else none

/-! ## Allocation engine (internal/portfolio, PortfolioManager) -/

/-- The PortfolioManager state used by the allocation functions: the
allocation and performance maps, and the market analyzer's volatility
tracker. -/
structure PortfolioState where
  allocations : String → Option ℚ
  performance : String → Option ℚ
  volTracker : String → Option VolatilityData

/-- GetAllocation: the stored allocation, or 0 when the symbol is absent. -/
def GetAllocation (pm : PortfolioState) (s : String) : ℚ :=
  (pm.allocations s).getD 0

/-- The performanceFactor computation of GetPerformanceBasedAllocation:
1 + performance/100, floored at 0.1 for negative performance, then kept
between 0.1 and 2.0. -/
def perfFactorClamped (perf : ℚ) : ℚ :=
  let f1 :=
    if perf > 0 then 1 + perf / 100
    else if perf < 0 then
      let g := 1 + perf / 100
      if g < 1/10 then 1/10 else g
    else 1
  if f1 < 1/10 then 1/10 else if f1 > 2 then 2 else f1

/-- The volatilityFactor computation of GetVolatilityAdjustedAllocation:
1/(1 + volatility*100), kept between 0.1 and 2.0. -/
def volFactorClamped (rv : ℚ) : ℚ :=
  let f := 1 / (1 + rv * 100)
  if f < 1/10 then 1/10 else if f > 2 then 2 else f

/-- GetPerformanceBasedAllocation from internal/portfolio: base allocation
scaled by the clamped performance factor; the base allocation alone when no
performance data exists. -/
def GetPerformanceBasedAllocation (pm : PortfolioState) (s : String) : ℚ :=
  let baseAllocation := GetAllocation pm s
  match pm.performance s with
  | none => baseAllocation
  | some perf => baseAllocation * perfFactorClamped perf

/-- GetVolatilityAdjustedAllocation from internal/portfolio: for positive
recent volatility, base allocation scaled by the clamped volatility factor;
otherwise the base allocation. -/
def GetVolatilityAdjustedAllocation (pm : PortfolioState) (s : String) : ℚ :=
  let baseAllocation := GetAllocation pm s
  match pm.volTracker s with
  | none => baseAllocation
  | some volData =>
      if volData.recentVolatility > 0 then
        baseAllocation * volFactorClamped volData.recentVolatility
      else baseAllocation

/-- GetOptimalAllocation: the average of the two adjusted allocations. -/
def GetOptimalAllocation (pm : PortfolioState) (s : String) : ℚ :=
  (GetPerformanceBasedAllocation pm s + GetVolatilityAdjustedAllocation pm s) / 2

/-- Specification-side clamp of a value into [lo, hi]. -/
def clampQ (x lo hi : ℚ) : ℚ :=
  max lo (min hi x)

/-- The worked example of the specification: base allocation 0.1667,
performance EMA 50, recent volatility 0.01. -/
def examplePM : PortfolioState :=
  { allocations := fun s => if s = "BTCUSDT" then some (1667/10000) else none
    performance := fun s => if s = "BTCUSDT" then some 50 else none
    volTracker := fun s => if s = "BTCUSDT" then some ⟨"BTCUSDT", 1/100, 0, "low"⟩ else none }

/-- Specification-side volatility classifier: high above 1.2 times the
long-run measure, low below 0.8 times it, medium otherwise. -/
def specVolatilityCat (recent long : ℚ) : String :=
  if recent > long * (6/5) then "high_volatility"
  else if recent < long * (4/5) then "low_volatility"
  else "medium_volatility"

/-- Specification-side trend classifier: up above slope 0.001, down below
-0.001, ranging otherwise. -/
def specTrendCat (slope : ℚ) : String :=
  if slope > 1/1000 then "trending_up"
  else if slope < -(1/1000) then "trending_down"
  else "ranging"

/-- Specification-side volume classifier: high above ratio 1.2, low below
0.8, normal otherwise. -/
def specVolumeCat (ratio : ℚ) : String :=
  if ratio > 6/5 then "high_volume"
  else if ratio < 4/5 then "low_volume"
  else "normal_volume"

/-- An entry-wise invariant of the correlation matrix: every present entry is
the canonical value for its pair. -/
def goodMat (hist : String → Option (List ℚ)) (m : CorrMat) : Prop :=
  ∀ x y v, m x y = some v → v = corrVal hist x y

/-! ## Theorems: strategy weights and selection -/

/-- Each branch of the volatility switch adds deltas summing to zero. -/
lemma weightsTotal_afterVolatility (r : MarketRegime) (w : Weights) :
    weightsTotal (afterVolatility r w) = weightsTotal w := by
  unfold afterVolatility weightsTotal
  split_ifs <;> simp <;> ring

/-- Each branch of the trend switch adds deltas summing to zero. -/
lemma weightsTotal_afterTrend (r : MarketRegime) (w : Weights) :
    weightsTotal (afterTrend r w) = weightsTotal w := by
  unfold afterTrend weightsTotal
  split_ifs <;> simp <;> ring

/-- Each branch of the volume switch adds deltas summing to zero. -/
lemma weightsTotal_afterVolume (r : MarketRegime) (w : Weights) :
    weightsTotal (afterVolume r w) = weightsTotal w := by
  unfold afterVolume weightsTotal
  split_ifs <;> simp <;> ring

/-- The un-normalized weights always total exactly 1. -/
lemma weightsTotal_rawWeights (r : MarketRegime) :
    weightsTotal (rawWeights r) = 1 := by
  unfold rawWeights
  rw [weightsTotal_afterVolume, weightsTotal_afterTrend, weightsTotal_afterVolatility]
  unfold baseWeights weightsTotal
  norm_num

/-- Normalization divides by the total 1, so it changes nothing. -/
lemma calculateStrategyWeights_eq_raw (r : MarketRegime) :
    calculateStrategyWeights r = rawWeights r := by
  unfold calculateStrategyWeights
  simp only [weightsTotal_rawWeights]
  norm_num

/-- The normalized weights total exactly 1. -/
lemma weightsTotal_calculate (r : MarketRegime) :
    weightsTotal (calculateStrategyWeights r) = 1 := by
  rw [calculateStrategyWeights_eq_raw, weightsTotal_rawWeights]

/-- C1 counterexample: in the regime (high volatility, trending up, high
volume) the normalized mean-reversion weight is -0.45, so the claim that every
normalized weight is nonnegative fails on the code (there is no flooring). -/
theorem strategyWeights_negative_weight_example :
    (calculateStrategyWeights ⟨"high_volatility", "trending_up", "high_volume"⟩).mr = -(9/20) ∧
    (-(9/20) : ℚ) < 0 := by
  constructor
  · rw [calculateStrategyWeights_eq_raw]
    norm_num [rawWeights, baseWeights, afterVolatility, afterTrend, afterVolume]
  · norm_num

/-- C1 (amended): for every market regime the normalized strategy weights sum
to exactly 1.0, hence within 1e-9; individual weights, however, may be
negative, as the counterexample shows. -/
theorem strategyWeights_normalized_sum_one (r : MarketRegime) :
    weightsTotal (calculateStrategyWeights r) = 1 ∧
    |weightsTotal (calculateStrategyWeights r) - 1| ≤ 1/1000000000 := by
  refine ⟨weightsTotal_calculate r, ?_⟩
  rw [weightsTotal_calculate]
  norm_num

/-- C10: the four un-normalized weights produced by the delta table sum to
exactly 1 in exact arithmetic, the degenerate non-positive-total branch is
unreachable, and normalization divides by 1 leaving every weight unchanged. -/
theorem rawStrategyWeights_total_one_normalization_identity (r : MarketRegime) :
    weightsTotal (rawWeights r) = 1 ∧
    0 < weightsTotal (rawWeights r) ∧
    calculateStrategyWeights r = rawWeights r := by
  refine ⟨weightsTotal_rawWeights r, ?_, calculateStrategyWeights_eq_raw r⟩
  rw [weightsTotal_rawWeights r]
  norm_num

/-- The running best of the selection loop never decreases. -/
lemma selectLoop_le (w : Weights) :
    ∀ (l : List StrategyType) (best : StrategyType × ℚ), best.2 ≤ (selectLoop w l best).2 := by
  intro l
  induction l with
  | nil => intro best; exact le_refl _
  | cons s rest ih =>
      intro best
      refine le_trans ?_ (ih (if w.get s > best.2 then (s, w.get s) else best))
      split_ifs with h
      · exact le_of_lt h
      · exact le_refl _

/-- Every visited strategy's weight is bounded by the final best. -/
lemma selectLoop_mem_le (w : Weights) :
    ∀ (l : List StrategyType) (best : StrategyType × ℚ) (s : StrategyType),
      s ∈ l → w.get s ≤ (selectLoop w l best).2 := by
  intro l
  induction l with
  | nil => intro _ _ hs; cases hs
  | cons a rest ih =>
      intro best s hs
      rcases List.mem_cons.1 hs with h | h
      · subst h
        refine le_trans ?_ (selectLoop_le w rest (if w.get s > best.2 then (s, w.get s) else best))
        split_ifs with hgt
        · exact le_refl _
        · exact le_of_not_lt hgt
      · exact ih _ s h

/-- The selection loop either keeps its initial accumulator or ends on a
visited strategy whose recorded weight is its own. -/
lemma selectLoop_eq_or (w : Weights) :
    ∀ (l : List StrategyType) (best : StrategyType × ℚ),
      selectLoop w l best = best ∨
      ((selectLoop w l best).1 ∈ l ∧ (selectLoop w l best).2 = w.get (selectLoop w l best).1) := by
  intro l
  induction l with
  | nil => intro best; exact Or.inl rfl
  | cons a rest ih =>
      intro best
      by_cases hgt : w.get a > best.2
      · have hstep : selectLoop w (a :: rest) best = selectLoop w rest (a, w.get a) := by
          simp only [selectLoop, if_pos hgt]
        rcases ih (a, w.get a) with h | h
        · refine Or.inr ?_
          rw [hstep, h]
          exact ⟨List.mem_cons_self a rest, rfl⟩
        · refine Or.inr ?_
          rw [hstep]
          exact ⟨List.mem_cons.2 (Or.inr h.1), h.2⟩
      · have hstep : selectLoop w (a :: rest) best = selectLoop w rest best := by
          simp only [selectLoop, if_neg hgt]
        rcases ih best with h | h
        · exact Or.inl (hstep.trans h)
        · refine Or.inr ?_
          rw [hstep]
          exact ⟨List.mem_cons.2 (Or.inr h.1), h.2⟩

/-- Some normalized weight is strictly positive (they sum to 1). -/
lemma exists_pos_weight (r : MarketRegime) :
    ∃ s : StrategyType, 0 < (calculateStrategyWeights r).get s := by
  by_contra h
  push_neg at h
  have h1 := h .marketMaking
  have h2 := h .momentum
  have h3 := h .meanReversion
  have h4 := h .volatilityBreakout
  have hsum := weightsTotal_calculate r
  unfold Weights.get at h1 h2 h3 h4
  unfold weightsTotal at hsum
  linarith

/-- C2 counterexample: with the never-analyzed regime (all fields "unknown",
as GetMarketRegime returns for an untracked symbol) all four weights tie at
0.25; iterating the map with momentum first selects momentum, while the
priority-first order selects market-making. The tie-break therefore follows
the map-iteration order, not a fixed priority list. -/
theorem selectStrategy_tie_depends_on_iteration_order :
    selectStrategy [.momentum, .marketMaking, .meanReversion, .volatilityBreakout]
        (calculateStrategyWeights ⟨"unknown", "unknown", "unknown"⟩) = .momentum ∧
    selectStrategy allStrategies
        (calculateStrategyWeights ⟨"unknown", "unknown", "unknown"⟩) = .marketMaking ∧
    [StrategyType.momentum, .marketMaking, .meanReversion, .volatilityBreakout].Perm
        allStrategies := by
  have hw : calculateStrategyWeights ⟨"unknown", "unknown", "unknown"⟩ =
      ⟨1/4, 1/4, 1/4, 1/4⟩ := by
    rw [calculateStrategyWeights_eq_raw]
    simp [rawWeights, baseWeights, afterVolatility, afterTrend, afterVolume]
  refine ⟨?_, ?_, List.Perm.swap _ _ _⟩ <;>
    rw [hw] <;>
    norm_num [selectStrategy, selectLoop, allStrategies, Weights.get]

/-- C2 (amended): for every regime and every iteration order that visits all
four strategies once, the selected strategy carries a maximal weight, and
whenever one strategy's weight strictly exceeds all others the selection is
that strategy independently of the order; only tie-breaking depends on the
iteration order. -/
theorem selectStrategy_returns_max_weight (r : MarketRegime) (order : List StrategyType)
    (hperm : order.Perm allStrategies) :
    (∀ s, (calculateStrategyWeights r).get s ≤
        (calculateStrategyWeights r).get (selectStrategy order (calculateStrategyWeights r))) ∧
    (∀ sStar, (∀ s, s ≠ sStar →
          (calculateStrategyWeights r).get s < (calculateStrategyWeights r).get sStar) →
        selectStrategy order (calculateStrategyWeights r) = sStar) := by
  set w := calculateStrategyWeights r with hw
  have hmem : ∀ s : StrategyType, s ∈ order := by
    intro s
    refine hperm.mem_iff.2 ?_
    cases s <;> simp [allStrategies]
  have hbound : ∀ s : StrategyType, w.get s ≤ (selectLoop w order (.marketMaking, 0)).2 :=
    fun s => selectLoop_mem_le w order _ s (hmem s)
  obtain ⟨s0, hs0⟩ := exists_pos_weight r
  have hres : (selectLoop w order (.marketMaking, 0)).2 =
      w.get (selectLoop w order (.marketMaking, 0)).1 := by
    rcases selectLoop_eq_or w order (.marketMaking, 0) with h | h
    · exfalso
      have := hbound s0
      rw [h] at this
      simp only at this
      rw [← hw] at hs0
      linarith
    · exact h.2
  have hmax : ∀ s, w.get s ≤ w.get (selectStrategy order w) := by
    intro s
    have := hbound s
    rw [hres] at this
    exact this
  refine ⟨hmax, ?_⟩
  intro sStar hdom
  by_contra hne
  have h1 := hmax sStar
  have h2 := hdom _ hne
  linarith

/-- Witness for the selection theorem: in the regime (medium volatility,
ranging, normal volume) mean-reversion has the strictly greatest weight and is
selected. -/
theorem selectStrategy_returns_max_weight_witness :
    selectStrategy allStrategies
        (calculateStrategyWeights ⟨"medium_volatility", "ranging", "normal_volume"⟩) =
      .meanReversion :=
  (selectStrategy_returns_max_weight ⟨"medium_volatility", "ranging", "normal_volume"⟩
      allStrategies (List.Perm.refl _)).2 .meanReversion (by
    intro s hs
    have hw : calculateStrategyWeights ⟨"medium_volatility", "ranging", "normal_volume"⟩ =
        ⟨7/20, -(1/20), 13/20, 1/20⟩ := by
      rw [calculateStrategyWeights_eq_raw]
      simp [rawWeights, baseWeights, afterVolatility, afterTrend, afterVolume]
      norm_num
    rw [hw]
    cases s
    · norm_num [Weights.get]
    · norm_num [Weights.get]
    · exact absurd rfl hs
    · norm_num [Weights.get])

/-! ## Theorems: circuit breaker protocol (modelled from the spec) -/

/-- C3: with failureThreshold 5, five consecutive failing calls open the
breaker; while open and within timeout of the last failure, a call returns
CircuitOpenError without invoking the operation; after the timeout the call is
attempted (half-open) and on success closes the breaker with failureCount 0,
while on failure it reopens the breaker and resets the failure timestamp. -/
theorem circuitBreaker_call_protocol (tmo : ℤ) (ts : List ℤ) (h5 : ts.length = 5) :
    (failCalls (NewCircuitBreaker tmo 5) ts).state = .opened ∧
    (∀ now opFails, now - (failCalls (NewCircuitBreaker tmo 5) ts).lastFailure ≤ tmo →
      ((failCalls (NewCircuitBreaker tmo 5) ts).call now opFails).circuitOpenError = true ∧
      ((failCalls (NewCircuitBreaker tmo 5) ts).call now opFails).opInvoked = false) ∧
    (∀ now, tmo < now - (failCalls (NewCircuitBreaker tmo 5) ts).lastFailure →
      ((failCalls (NewCircuitBreaker tmo 5) ts).call now false).opInvoked = true ∧
      ((failCalls (NewCircuitBreaker tmo 5) ts).call now false).cb.state = .closed ∧
      ((failCalls (NewCircuitBreaker tmo 5) ts).call now false).cb.failureCount = 0) ∧
    (∀ now, tmo < now - (failCalls (NewCircuitBreaker tmo 5) ts).lastFailure →
      ((failCalls (NewCircuitBreaker tmo 5) ts).call now true).opInvoked = true ∧
      ((failCalls (NewCircuitBreaker tmo 5) ts).call now true).cb.state = .opened ∧
      ((failCalls (NewCircuitBreaker tmo 5) ts).call now true).cb.lastFailure = now) := by
  rcases ts with _ | ⟨t1, _ | ⟨t2, _ | ⟨t3, _ | ⟨t4, _ | ⟨t5, _ | ⟨t6, rest⟩⟩⟩⟩⟩⟩ <;>
    simp only [List.length] at h5 <;> try omega
  have hcb : failCalls (NewCircuitBreaker tmo 5) [t1, t2, t3, t4, t5] =
      ⟨.opened, 5, t5, tmo, 5⟩ := by
    simp [failCalls, NewCircuitBreaker, CircuitBreaker.call]
  rw [hcb]
  refine ⟨rfl, ?_, ?_, ?_⟩
  · intro now opFails h
    have hcond : ¬ (tmo < now - t5) := not_lt.2 h
    simp [CircuitBreaker.call, hcond]
  · intro now h
    simp [CircuitBreaker.call, h]
  · intro now h
    simp [CircuitBreaker.call, h]

/-- Witness for the circuit breaker protocol at timeout 10 and failure times
1,1,1,1,1: the breaker is open, a call at time 5 fast-fails without invoking
the operation, a successful call at time 20 closes it, a failing call at time
20 reopens it. -/
theorem circuitBreaker_call_protocol_witness :
    (failCalls (NewCircuitBreaker 10 5) [1, 1, 1, 1, 1]).state = .opened ∧
    ((failCalls (NewCircuitBreaker 10 5) [1, 1, 1, 1, 1]).call 5 true).circuitOpenError = true ∧
    ((failCalls (NewCircuitBreaker 10 5) [1, 1, 1, 1, 1]).call 5 true).opInvoked = false ∧
    ((failCalls (NewCircuitBreaker 10 5) [1, 1, 1, 1, 1]).call 20 false).cb.state = .closed ∧
    ((failCalls (NewCircuitBreaker 10 5) [1, 1, 1, 1, 1]).call 20 true).cb.state = .opened := by
  have h := circuitBreaker_call_protocol 10 [1, 1, 1, 1, 1] rfl
  exact ⟨h.1, (h.2.1 5 true (by decide)).1, (h.2.1 5 true (by decide)).2,
    (h.2.2.1 20 (by decide)).2.1, (h.2.2.2 20 (by decide)).2.1⟩

/-! ## Theorems: regime classification totality and thresholds -/

/-- C5: regime classification is not total. An empty series returns the
default regime (low volatility, ranging, normal volume), but a two-bar series
reaches the slice prices[len-10:] with a negative index and panics (none),
while ten bars are again fine. -/
theorem analyzeMarketConditions_panics_between_two_and_nine_bars :
    AnalyzeMarketConditions emptyData = some ⟨"low_volatility", "ranging", "normal_volume"⟩ ∧
    AnalyzeMarketConditions twoBarData = none ∧
    (AnalyzeMarketConditions tenBarData).isSome = true := by
  refine ⟨rfl, rfl, rfl⟩

/-- When every previous price is nonzero, the simpleVolatility loop sums all
consecutive absolute relative changes and counts every pair. -/
lemma svLoop_all_nonzero :
    ∀ ps : List (ℚ × ℚ), (∀ p ∈ ps, p.1 ≠ 0) →
      svLoop ps = ((ps.map fun p => |(p.2 - p.1) / p.1|).sum, ps.length) := by
  intro ps
  induction ps with
  | nil => intro _; simp [svLoop]
  | cons a rest ih =>
      intro h
      obtain ⟨x, y⟩ := a
      have hx : x ≠ 0 := h (x, y) (List.mem_cons_self _ _)
      have hrest := ih fun p hp => h p (List.mem_cons.2 (Or.inr hp))
      simp only [svLoop, hrest, if_pos hx, List.map_cons, List.sum_cons, List.length_cons]
      rw [Prod.mk.injEq]
      exact ⟨by ring, rfl⟩

/-- On a series of at least two prices, all nonzero, the source's
simpleVolatility equals the specification's mean absolute relative change. -/
lemma simpleVolatility_eq_meanAbsRelChange (xs : List ℚ) (h2 : 2 ≤ xs.length)
    (hnz : ∀ p ∈ xs, p ≠ 0) :
    simpleVolatility xs = meanAbsRelChange xs := by
  have hlen : (xs.zip xs.tail).length = xs.length - 1 := by
    rw [List.length_zip, List.length_tail]
    exact min_eq_right (Nat.sub_le _ _)
  have hpairs : ∀ p ∈ xs.zip xs.tail, p.1 ≠ 0 :=
    fun p hp => hnz p.1 (List.of_mem_zip hp).1
  have hcast : ((xs.length - 1 : ℕ) : ℚ) = (xs.length : ℚ) - 1 := by
    rw [Nat.cast_sub (by omega)]
    norm_num
  simp only [simpleVolatility, meanAbsRelChange, if_neg (by omega : ¬ xs.length < 2),
    svLoop_all_nonzero _ hpairs, hlen]
  rw [if_neg (by omega : ¬ xs.length - 1 = 0), hcast]

/-- Expansion of a sum of centered products. -/
lemma sum_centered_mul (n : ℕ) (f g : ℕ → ℚ) (a b : ℚ) :
    ∑ i ∈ Finset.range n, (f i - a) * (g i - b) =
      (∑ i ∈ Finset.range n, f i * g i) - b * (∑ i ∈ Finset.range n, f i)
        - a * (∑ i ∈ Finset.range n, g i) + (n : ℚ) * (a * b) := by
  induction n with
  | zero => simp
  | succ k ih =>
      rw [Finset.sum_range_succ, Finset.sum_range_succ, Finset.sum_range_succ,
        Finset.sum_range_succ, ih]
      push_cast
      ring

/-- The running-sum slope of the source equals the centered
ordinary-least-squares slope of the specification. -/
lemma linearRegressionSlope_eq_olsSlope (ys : List ℚ) :
    linearRegressionSlope ys = olsSlope ys := by
  by_cases h2 : ys.length < 2
  · simp [linearRegressionSlope, olsSlope, h2]
  · have hn : ((ys.length : ℚ)) ≠ 0 := by
      have : 2 ≤ ys.length := not_lt.1 h2
      exact_mod_cast by omega
    simp only [linearRegressionSlope, olsSlope, if_neg h2]
    rw [sum_centered_mul ys.length (fun i => (i : ℚ)) (fun i => ys.getD i 0),
      sum_centered_mul ys.length (fun i => (i : ℚ)) (fun i => (i : ℚ))]
    set A := ∑ i ∈ Finset.range ys.length, (i : ℚ) with hA
    set Y := ∑ i ∈ Finset.range ys.length, ys.getD i 0 with hY
    set XY := ∑ i ∈ Finset.range ys.length, (i : ℚ) * ys.getD i 0 with hXY
    set XX := ∑ i ∈ Finset.range ys.length, (i : ℚ) * (i : ℚ) with hXX
    set N := ((ys.length : ℕ) : ℚ) with hN2
    have hnum : XY - Y / N * A - A / N * Y + N * (A / N * (Y / N)) = (N * XY - A * Y) / N := by
      field_simp
      ring
    have hden : XX - A / N * A - A / N * A + N * (A / N * (A / N)) = (N * XX - A * A) / N := by
      field_simp
      ring
    rw [hnum, hden]
    by_cases hd : N * XX - A * A = 0
    · rw [if_pos hd, hd]
      simp
    · rw [if_neg hd]
      rw [div_div_div_cancel_right₀]
      exact hn

set_option maxHeartbeats 1600000 in
/-- C4: for a series of at least 10 bars (with nonzero mid prices and
positive total volume, so the spec's measures are well defined),
AnalyzeMarketConditions classifies exactly by the stated thresholds: the mean
absolute relative mid-price change of the last 10 bars against 1.2 / 0.8
times the full-series measure, the ordinary-least-squares closing-price slope
against plus or minus 0.001, and the latest-to-average volume ratio against
1.2 / 0.8. -/
theorem analyzeMarketConditions_thresholds (d : MarketData)
    (h10 : 10 ≤ d.kline.length)
    (hnz : ∀ p ∈ d.kline.map (fun k => (k.high + k.low) / 2), p ≠ 0)
    (hvol : 0 < (d.kline.map (fun k => k.volume)).sum) :
    AnalyzeMarketConditions d = some
      ⟨specVolatilityCat
          (meanAbsRelChange
            ((d.kline.map (fun k => (k.high + k.low) / 2)).drop (d.kline.length - 10)))
          (meanAbsRelChange (d.kline.map (fun k => (k.high + k.low) / 2))),
        specTrendCat (olsSlope (d.kline.map (fun k => k.close))),
        specVolumeCat ((d.kline.map (fun k => k.volume)).getD (d.kline.length - 1) 0 /
          ((d.kline.map (fun k => k.volume)).sum / (d.kline.length : ℚ)))⟩ := by
  have hmlen : (d.kline.map (fun k => (k.high + k.low) / 2)).length = d.kline.length :=
    List.length_map _ _
  have hclen : (d.kline.map (fun k => k.close)).length = d.kline.length :=
    List.length_map _ _
  have hvlen : (d.kline.map (fun k => k.volume)).length = d.kline.length :=
    List.length_map _ _
  have hrec : simpleVolatility
      ((d.kline.map (fun k => (k.high + k.low) / 2)).drop (d.kline.length - 10)) =
      meanAbsRelChange
        ((d.kline.map (fun k => (k.high + k.low) / 2)).drop (d.kline.length - 10)) := by
    apply simpleVolatility_eq_meanAbsRelChange
    · rw [List.length_drop, hmlen]
      omega
    · intro p hp
      exact hnz p ((List.drop_sublist _ _).subset hp)
  have hlong : simpleVolatility (d.kline.map (fun k => (k.high + k.low) / 2)) =
      meanAbsRelChange (d.kline.map (fun k => (k.high + k.low) / 2)) := by
    apply simpleVolatility_eq_meanAbsRelChange
    · omega
    · exact hnz
  have hslope := linearRegressionSlope_eq_olsSlope (d.kline.map (fun k => k.close))
  have hklen : (0 : ℚ) < (d.kline.length : ℚ) := by
    exact_mod_cast by omega
  have havg : 0 < (d.kline.map (fun k => k.volume)).sum / (d.kline.length : ℚ) :=
    div_pos hvol hklen
  simp only [AnalyzeMarketConditions, calculateVolatility, calculateTrend,
    calculateVolumeProfile, determineVolatilityRegime, determineTrendRegime,
    determineVolumeRegime, specVolatilityCat, specTrendCat, specVolumeCat,
    hmlen, hclen, hvlen,
    if_neg (by omega : ¬ d.kline.length < 2),
    if_neg (by omega : ¬ d.kline.length < 10),
    if_neg (by omega : ¬ d.kline.length = 0),
    hrec, hlong, hslope, if_pos havg]
  split_ifs <;> first | rfl | simp_all

/-- Witness for the threshold theorem at the concrete ten-bar series. -/
theorem analyzeMarketConditions_thresholds_witness :
    AnalyzeMarketConditions tenBarData = some
      ⟨specVolatilityCat
          (meanAbsRelChange
            ((tenBarData.kline.map (fun k => (k.high + k.low) / 2)).drop
              (tenBarData.kline.length - 10)))
          (meanAbsRelChange (tenBarData.kline.map (fun k => (k.high + k.low) / 2))),
        specTrendCat (olsSlope (tenBarData.kline.map (fun k => k.close))),
        specVolumeCat ((tenBarData.kline.map (fun k => k.volume)).getD
            (tenBarData.kline.length - 1) 0 /
          ((tenBarData.kline.map (fun k => k.volume)).sum / (tenBarData.kline.length : ℚ)))⟩ :=
  analyzeMarketConditions_thresholds tenBarData
    (by norm_num [tenBarData])
    (by intro p hp; fin_cases hp <;> norm_num)
    (by norm_num [tenBarData])

/-! ## Theorems: correlation matrix -/

/-- The centered product sum is symmetric in its two series. -/
lemma centeredProd_comm (n : ℕ) (x y : List ℚ) :
    centeredProd n x y = centeredProd n y x :=
  Finset.sum_congr rfl fun _ _ => mul_comm _ _

/-- A centered product of a series with itself is nonnegative. -/
lemma centeredProd_self_nonneg (n : ℕ) (x : List ℚ) :
    0 ≤ centeredProd n x x :=
  Finset.sum_nonneg fun _ _ => mul_self_nonneg _

/-- Pearson correlation is symmetric. -/
lemma pearsonCorrelation_comm (x y : List ℚ) :
    pearsonCorrelation x y = pearsonCorrelation y x := by
  by_cases hl : x.length = y.length
  · unfold pearsonCorrelation
    rw [← hl]
    by_cases h2 : x.length < 2
    · rw [if_pos (Or.inr h2), if_pos (Or.inr h2)]
    · have hc : ¬ (x.length ≠ x.length ∨ x.length < 2) := by simp [h2]
      rw [if_neg hc, if_neg hc, centeredProd_comm x.length y x]
      by_cases hx : centeredProd x.length x x = 0 <;>
        by_cases hy : centeredProd x.length y y = 0 <;>
        simp [hx, hy, mul_comm]
  · have h1 : x.length ≠ y.length := hl
    have h2 : y.length ≠ x.length := fun h => hl h.symm
    unfold pearsonCorrelation
    rw [if_pos (Or.inl h1), if_pos (Or.inl h2)]

/-- Cauchy-Schwarz for the centered sums. -/
lemma centeredProd_sq_le (n : ℕ) (x y : List ℚ) :
    centeredProd n x y ^ 2 ≤ centeredProd n x x * centeredProd n y y := by
  have h := Finset.sum_mul_sq_le_sq_mul_sq (Finset.range n)
    (fun i => x.getD i 0 - seriesMean n x) (fun i => y.getD i 0 - seriesMean n y)
  simp only [pow_two] at h ⊢
  exact h

/-- Pearson correlation always lies in [-1, 1]. -/
lemma pearsonCorrelation_bounds (x y : List ℚ) :
    -1 ≤ pearsonCorrelation x y ∧ pearsonCorrelation x y ≤ 1 := by
  unfold pearsonCorrelation
  split_ifs with h1 h2
  · norm_num
  · norm_num
  · obtain ⟨hxx, hyy⟩ := not_or.1 h2
    have hxxpos : 0 < centeredProd x.length x x :=
      lt_of_le_of_ne (centeredProd_self_nonneg _ _) (Ne.symm hxx)
    have hyypos : 0 < centeredProd x.length y y :=
      lt_of_le_of_ne (centeredProd_self_nonneg _ _) (Ne.symm hyy)
    have hcs := centeredProd_sq_le x.length x y
    have hD : (0 : ℝ) < (centeredProd x.length x x : ℝ) * (centeredProd x.length y y : ℝ) := by
      have hx : (0 : ℝ) < (centeredProd x.length x x : ℝ) := by exact_mod_cast hxxpos
      have hy : (0 : ℝ) < (centeredProd x.length y y : ℝ) := by exact_mod_cast hyypos
      exact mul_pos hx hy
    have hsq : 0 < Real.sqrt ((centeredProd x.length x x : ℝ) * (centeredProd x.length y y : ℝ)) :=
      Real.sqrt_pos.2 hD
    have habs : |(centeredProd x.length x y : ℝ)| ≤
        Real.sqrt ((centeredProd x.length x x : ℝ) * (centeredProd x.length y y : ℝ)) := by
      rw [← Real.sqrt_sq_eq_abs]
      apply Real.sqrt_le_sqrt
      exact_mod_cast hcs
    have hq : |(centeredProd x.length x y : ℝ) /
        Real.sqrt ((centeredProd x.length x x : ℝ) * (centeredProd x.length y y : ℝ))| ≤ 1 := by
      rw [abs_div, abs_of_pos hsq]
      exact (div_le_one hsq).2 habs
    exact ⟨neg_le_of_abs_le hq, le_of_abs_le hq⟩

/-- calculateCorrelation is symmetric in its two symbols. -/
lemma calculateCorrelation_comm (hist : String → Option (List ℚ)) (a b : String) :
    calculateCorrelation hist a b = calculateCorrelation hist b a := by
  unfold calculateCorrelation
  cases ha : hist a with
  | none => cases hb : hist b <;> simp
  | some pa =>
      cases hb : hist b with
      | none => simp
      | some pb =>
          simp only [min_comm pb.length pa.length]
          by_cases hmin : min pa.length pb.length < 2
          · simp [hmin]
          · simp [hmin, pearsonCorrelation_comm]

/-- calculateCorrelation always lies in [-1, 1]. -/
lemma calculateCorrelation_bounds (hist : String → Option (List ℚ)) (a b : String) :
    -1 ≤ calculateCorrelation hist a b ∧ calculateCorrelation hist a b ≤ 1 := by
  unfold calculateCorrelation
  cases ha : hist a with
  | none => cases hb : hist b <;> norm_num
  | some pa =>
      cases hb : hist b with
      | none => norm_num
      | some pb =>
          by_cases hmin : min pa.length pb.length < 2
          · simp [hmin]
          · constructor
            · simpa [hmin] using (pearsonCorrelation_bounds
                (pa.drop (pa.length - min pa.length pb.length))
                (pb.drop (pb.length - min pa.length pb.length))).1
            · simpa [hmin] using (pearsonCorrelation_bounds
                (pa.drop (pa.length - min pa.length pb.length))
                (pb.drop (pb.length - min pa.length pb.length))).2

/-- Below two overlapping points the correlation is 0. -/
lemma calculateCorrelation_short (hist : String → Option (List ℚ)) (a b : String)
    (pa pb : List ℚ) (ha : hist a = some pa) (hb : hist b = some pb)
    (hshort : min pa.length pb.length < 2) :
    calculateCorrelation hist a b = 0 := by
  unfold calculateCorrelation
  rw [ha, hb]
  simp [hshort]

/-- The canonical entry value is symmetric. -/
lemma corrVal_comm (hist : String → Option (List ℚ)) (a b : String) :
    corrVal hist a b = corrVal hist b a := by
  unfold corrVal
  by_cases hab : a = b
  · simp [hab]
  · have hba : ¬ b = a := fun h => hab h.symm
    rw [if_neg hab, if_neg hba]
    exact calculateCorrelation_comm hist a b

/-- The canonical entry value lies in [-1, 1]. -/
lemma corrVal_bounds (hist : String → Option (List ℚ)) (a b : String) :
    -1 ≤ corrVal hist a b ∧ corrVal hist a b ≤ 1 := by
  unfold corrVal
  by_cases hab : a = b
  · simp [hab]
  · rw [if_neg hab]
    exact calculateCorrelation_bounds hist a b

/-- Setting the entry it describes preserves the matrix invariant. -/
lemma goodMat_matSet (hist : String → Option (List ℚ)) {m : CorrMat} (hm : goodMat hist m)
    {a b : String} {v : ℝ} (hv : v = corrVal hist a b) :
    goodMat hist (matSet m a b v) := by
  intro x y u hu
  by_cases hx : x = a
  · by_cases hy : y = b
    · subst hx; subst hy
      simp only [matSet, if_pos rfl] at hu
      cases hu
      exact hv
    · simp only [matSet, if_pos hx, if_neg hy] at hu
      exact hm _ _ _ hu
  · simp only [matSet, if_neg hx] at hu
    exact hm _ _ _ hu

/-- matSet never erases an entry. -/
lemma matSet_isSome (m : CorrMat) (a b : String) (v : ℝ) (x y : String)
    (h : (m x y).isSome = true) : ((matSet m a b v) x y).isSome = true := by
  simp only [matSet]
  split_ifs <;> simp_all

/-- Equal enum indices correspond to equal elements and conversely on a
duplicate-free list. -/
lemma enum_index_eq_iff {l : List String} (hnd : l.Nodup) {i j : ℕ} {a b : String}
    (hi : (i, a) ∈ l.enum) (hj : (j, b) ∈ l.enum) : i = j ↔ a = b := by
  have h1 := List.mk_mem_enum_iff_getElem?.1 hi
  have h2 := List.mk_mem_enum_iff_getElem?.1 hj
  constructor
  · intro h
    subst h
    rw [h1] at h2
    exact Option.some.inj h2
  · intro h
    subst h
    have hlen : i < l.length := by
      by_contra hc
      rw [List.getElem?_eq_none (le_of_not_lt hc)] at h1
      cases h1
    exact List.getElem?_inj hlen hnd (h1.trans h2.symm)

/-- The inner loop writes only canonical values. -/
lemma goodMat_innerLoop (hist : String → Option (List ℚ)) {symbols : List String}
    (hnd : symbols.Nodup) {s1 : String} {i : ℕ} (hi : (i, s1) ∈ symbols.enum) :
    ∀ (inner : List (ℕ × String)) (m : CorrMat), (∀ p ∈ inner, p ∈ symbols.enum) →
      goodMat hist m → goodMat hist (corrInnerLoop hist s1 i inner m) := by
  intro inner
  induction inner with
  | nil => intro m _ hm; exact hm
  | cons p rest ih =>
      obtain ⟨j, s2⟩ := p
      intro m hsub hm
      have hj : (j, s2) ∈ symbols.enum := hsub _ (List.mem_cons_self _ _)
      have hrest : ∀ q ∈ rest, q ∈ symbols.enum :=
        fun q hq => hsub q (List.mem_cons.2 (Or.inr hq))
      simp only [corrInnerLoop]
      by_cases hij : i = j
      · rw [if_pos hij]
        refine ih _ hrest (goodMat_matSet hist hm ?_)
        have hs : s1 = s2 := (enum_index_eq_iff hnd hi hj).1 hij
        simp [corrVal, hs]
      · rw [if_neg hij]
        have hs : s1 ≠ s2 := fun h => hij ((enum_index_eq_iff hnd hi hj).2 h)
        refine ih _ hrest (goodMat_matSet hist (goodMat_matSet hist hm ?_) ?_)
        · simp [corrVal, hs]
        · have hs2 : ¬ s2 = s1 := fun h => hs h.symm
          simp only [corrVal, if_neg hs2]
          exact calculateCorrelation_comm hist s1 s2

/-- The inner loop never erases entries. -/
lemma innerLoop_isSome (hist : String → Option (List ℚ)) (s1 : String) (i : ℕ) :
    ∀ (inner : List (ℕ × String)) (m : CorrMat) (x y : String),
      (m x y).isSome = true → ((corrInnerLoop hist s1 i inner m) x y).isSome = true := by
  intro inner
  induction inner with
  | nil => intro m x y h; exact h
  | cons p rest ih =>
      obtain ⟨j, s2⟩ := p
      intro m x y h
      simp only [corrInnerLoop]
      by_cases hij : i = j
      · rw [if_pos hij]
        exact ih _ x y (matSet_isSome _ _ _ _ _ _ h)
      · rw [if_neg hij]
        exact ih _ x y (matSet_isSome _ _ _ _ _ _ (matSet_isSome _ _ _ _ _ _ h))

/-- After the inner loop, every visited column of the current row is set. -/
lemma innerLoop_covers (hist : String → Option (List ℚ)) (s1 : String) (i : ℕ) :
    ∀ (inner : List (ℕ × String)) (m : CorrMat) (q : ℕ × String),
      q ∈ inner → ((corrInnerLoop hist s1 i inner m) s1 q.2).isSome = true := by
  intro inner
  induction inner with
  | nil => intro m q h; cases h
  | cons p rest ih =>
      obtain ⟨k, t⟩ := p
      intro m q hmem
      rcases List.mem_cons.1 hmem with h | h
      · subst h
        simp only [corrInnerLoop]
        by_cases hik : i = k
        · rw [if_pos hik]
          apply innerLoop_isSome
          simp [matSet]
        · rw [if_neg hik]
          apply innerLoop_isSome
          simp only [matSet]
          split_ifs <;> simp
      · simp only [corrInnerLoop]
        split_ifs <;> exact ih _ q h

/-- The outer loop writes only canonical values. -/
lemma goodMat_outerLoop (hist : String → Option (List ℚ)) {symbols : List String}
    (hnd : symbols.Nodup) :
    ∀ (outer : List (ℕ × String)) (m : CorrMat), (∀ p ∈ outer, p ∈ symbols.enum) →
      goodMat hist m → goodMat hist (corrOuterLoop hist symbols.enum outer m) := by
  intro outer
  induction outer with
  | nil => intro m _ hm; exact hm
  | cons p rest ih =>
      obtain ⟨i, s1⟩ := p
      intro m hsub hm
      simp only [corrOuterLoop]
      refine ih _ (fun q hq => hsub q (List.mem_cons.2 (Or.inr hq))) ?_
      exact goodMat_innerLoop hist hnd (hsub _ (List.mem_cons_self _ _)) _ m
        (fun q hq => hq) hm

/-- The outer loop never erases entries. -/
lemma outerLoop_isSome (hist : String → Option (List ℚ)) (allSyms : List (ℕ × String)) :
    ∀ (outer : List (ℕ × String)) (m : CorrMat) (x y : String),
      (m x y).isSome = true → ((corrOuterLoop hist allSyms outer m) x y).isSome = true := by
  intro outer
  induction outer with
  | nil => intro m x y h; exact h
  | cons p rest ih =>
      obtain ⟨i, s1⟩ := p
      intro m x y h
      simp only [corrOuterLoop]
      exact ih _ x y (innerLoop_isSome hist s1 i allSyms m x y h)

/-- After the outer loop, every (row, column) pair of visited symbols is set. -/
lemma outerLoop_covers (hist : String → Option (List ℚ)) (allSyms : List (ℕ × String)) :
    ∀ (outer : List (ℕ × String)) (m : CorrMat) (p q : ℕ × String),
      p ∈ outer → q ∈ allSyms →
      ((corrOuterLoop hist allSyms outer m) p.2 q.2).isSome = true := by
  intro outer
  induction outer with
  | nil => intro m p q h _; cases h
  | cons hd rest ih =>
      obtain ⟨k, t⟩ := hd
      intro m p q hmem hq
      rcases List.mem_cons.1 hmem with h | h
      · subst h
        simp only [corrOuterLoop]
        exact outerLoop_isSome hist allSyms rest _ t q.2
          (innerLoop_covers hist t k allSyms m q hq)
      · simp only [corrOuterLoop]
        exact ih _ p q h hq

/-- Every entry of the recomputed matrix between symbols with history is the
canonical value. -/
lemma calculateCorrelations_entry (hist : String → Option (List ℚ)) (symbols : List String)
    (hnd : symbols.Nodup) (a b : String) (ha : a ∈ symbols) (hb : b ∈ symbols) :
    CalculateCorrelations hist symbols a b = some (corrVal hist a b) := by
  obtain ⟨i, hi⟩ := List.getElem?_of_mem ha
  obtain ⟨j, hj⟩ := List.getElem?_of_mem hb
  have hia : (i, a) ∈ symbols.enum := List.mk_mem_enum_iff_getElem?.2 hi
  have hjb : (j, b) ∈ symbols.enum := List.mk_mem_enum_iff_getElem?.2 hj
  have hsome : ((CalculateCorrelations hist symbols) a b).isSome = true :=
    outerLoop_covers hist symbols.enum symbols.enum _ (i, a) (j, b) hia hjb
  have hgood : goodMat hist (CalculateCorrelations hist symbols) :=
    goodMat_outerLoop hist hnd symbols.enum _ (fun q hq => hq)
      (fun _ _ _ h => by cases h)
  obtain ⟨v, hv⟩ := Option.isSome_iff_exists.1 hsome
  rw [hv, hgood _ _ _ hv]

/-- C6: after CalculateCorrelations, for all symbols a, b with price history
the matrix is symmetric, has 1.0 on the diagonal, every entry lies in [-1, 1],
and distinct symbols whose overlapping history is shorter than 2 points have
correlation 0. -/
theorem calculateCorrelations_matrix_props (hist : String → Option (List ℚ))
    (symbols : List String) (hnd : symbols.Nodup) (a b : String)
    (ha : a ∈ symbols) (hb : b ∈ symbols) :
    CalculateCorrelations hist symbols a b = CalculateCorrelations hist symbols b a ∧
    CalculateCorrelations hist symbols a a = some 1 ∧
    (∀ v, CalculateCorrelations hist symbols a b = some v → -1 ≤ v ∧ v ≤ 1) ∧
    (∀ pa pb, a ≠ b → hist a = some pa → hist b = some pb →
      min pa.length pb.length < 2 → CalculateCorrelations hist symbols a b = some 0) := by
  have hab := calculateCorrelations_entry hist symbols hnd a b ha hb
  have hba := calculateCorrelations_entry hist symbols hnd b a hb ha
  have haa := calculateCorrelations_entry hist symbols hnd a a ha ha
  refine ⟨?_, ?_, ?_, ?_⟩
  · rw [hab, hba, corrVal_comm]
  · rw [haa]
    simp [corrVal]
  · intro v hv
    rw [hab] at hv
    have hveq : v = corrVal hist a b := (Option.some.inj hv).symm
    rw [hveq]
    exact corrVal_bounds hist a b
  · intro pa pb hne hpa hpb hshort
    rw [hab, corrVal, if_neg hne,
      calculateCorrelation_short hist a b pa pb hpa hpb hshort]

/-- Witness for the correlation-matrix theorem on a concrete two-symbol
history. -/
theorem calculateCorrelations_matrix_props_witness :
    CalculateCorrelations pairHistory ["A", "B"] "A" "B" =
      CalculateCorrelations pairHistory ["A", "B"] "B" "A" ∧
    CalculateCorrelations pairHistory ["A", "B"] "A" "A" = some 1 ∧
    (∀ v, CalculateCorrelations pairHistory ["A", "B"] "A" "B" = some v →
      -1 ≤ v ∧ v ≤ 1) ∧
    (∀ pa pb, "A" ≠ "B" → pairHistory "A" = some pa → pairHistory "B" = some pb →
      min pa.length pb.length < 2 →
      CalculateCorrelations pairHistory ["A", "B"] "A" "B" = some 0) :=
  calculateCorrelations_matrix_props pairHistory ["A", "B"] (by decide) "A" "B"
    (by decide) (by decide)

/-! ## Theorems: diversification score -/

/-- With at least two symbols, the double loop visits at least one pair. -/
lemma offDiagPairs_length_pos {symbols : List String} (h : 2 ≤ symbols.length) :
    0 < (offDiagPairs symbols).length := by
  rcases symbols with _ | ⟨a, _ | ⟨b, rest⟩⟩
  · simp at h
  · simp at h
  · simp [offDiagPairs]

/-- A list of values in [0, 1] sums to something in [0, length]. -/
lemma list_sum_bounds (l : List ℝ) (h : ∀ x ∈ l, 0 ≤ x ∧ x ≤ 1) :
    0 ≤ l.sum ∧ l.sum ≤ (l.length : ℝ) := by
  induction l with
  | nil => simp
  | cons a t ih =>
      have ha := h a (List.mem_cons_self _ _)
      have ht := ih fun x hx => h x (List.mem_cons.2 (Or.inr hx))
      simp only [List.sum_cons, List.length_cons]
      constructor
      · linarith [ht.1, ha.1]
      · push_cast
        linarith [ht.2, ha.2]

/-- C7: GetDiversificationScore returns 1 for at most one symbol and when no
matrix entries exist for its pairs; otherwise it returns 1 minus the mean
absolute pairwise correlation (missing entries counted as 0); and whenever
all matrix entries lie in [-1, 1] the score lies in [0, 1]. -/
theorem getDiversificationScore_props (m : CorrMat) (symbols : List String) :
    (symbols.length ≤ 1 → GetDiversificationScore m symbols = 1) ∧
    ((∀ p ∈ offDiagPairs symbols, m p.1 p.2 = none) →
      GetDiversificationScore m symbols = 1) ∧
    (2 ≤ symbols.length → GetDiversificationScore m symbols =
      1 - ((offDiagPairs symbols).map fun p => |lookupCorr m p.1 p.2|).sum /
        (((offDiagPairs symbols).length : ℕ) : ℝ)) ∧
    ((∀ a b v, m a b = some v → -1 ≤ v ∧ v ≤ 1) →
      0 ≤ GetDiversificationScore m symbols ∧ GetDiversificationScore m symbols ≤ 1) := by
  refine ⟨?_, ?_, ?_, ?_⟩
  · intro h
    simp [GetDiversificationScore, h]
  · intro h
    by_cases hlen : symbols.length ≤ 1
    · simp [GetDiversificationScore, hlen]
    · have hzero : ((offDiagPairs symbols).map fun p => |lookupCorr m p.1 p.2|).sum = 0 := by
        apply List.sum_eq_zero
        intro x hx
        obtain ⟨p, hp, hpx⟩ := List.mem_map.1 hx
        rw [← hpx, lookupCorr, h p hp]
        simp
      simp [GetDiversificationScore, hlen, hzero]
  · intro h
    have hlen : ¬ symbols.length ≤ 1 := by omega
    have hpos : ¬ (offDiagPairs symbols).length = 0 :=
      Nat.pos_iff_ne_zero.1 (offDiagPairs_length_pos h)
    simp [GetDiversificationScore, hlen, hpos]
  · intro hbnd
    have habs : ∀ x ∈ (offDiagPairs symbols).map fun p => |lookupCorr m p.1 p.2|,
        0 ≤ x ∧ x ≤ 1 := by
      intro x hx
      obtain ⟨p, _, hpx⟩ := List.mem_map.1 hx
      refine ⟨hpx ▸ abs_nonneg _, ?_⟩
      rw [← hpx, lookupCorr]
      cases hm : m p.1 p.2 with
      | none => simp
      | some v =>
          simp only [Option.getD_some]
          exact abs_le.2 (hbnd p.1 p.2 v hm)
    by_cases h1 : symbols.length ≤ 1
    · simp [GetDiversificationScore, h1]
    · by_cases h2 : (offDiagPairs symbols).length = 0
      · simp [GetDiversificationScore, h1, h2]
      · have hscore : GetDiversificationScore m symbols =
            1 - ((offDiagPairs symbols).map fun p => |lookupCorr m p.1 p.2|).sum /
              (((offDiagPairs symbols).length : ℕ) : ℝ) := by
          simp [GetDiversificationScore, h1, h2]
        rw [hscore]
        have hsum := list_sum_bounds _ habs
        rw [List.length_map] at hsum
        have hcpos : (0 : ℝ) < (((offDiagPairs symbols).length : ℕ) : ℝ) := by
          have := Nat.pos_of_ne_zero h2
          exact_mod_cast this
        have hdiv0 : 0 ≤ ((offDiagPairs symbols).map fun p => |lookupCorr m p.1 p.2|).sum /
            (((offDiagPairs symbols).length : ℕ) : ℝ) := div_nonneg hsum.1 hcpos.le
        have hdiv1 : ((offDiagPairs symbols).map fun p => |lookupCorr m p.1 p.2|).sum /
            (((offDiagPairs symbols).length : ℕ) : ℝ) ≤ 1 :=
          (div_le_one hcpos).2 hsum.2
        constructor <;> linarith

/-- Witness for the diversification-score theorem: the empty matrix over two
symbols gives the mean formula and bounds. -/
theorem getDiversificationScore_props_witness :
    (2 ≤ (["A", "B"] : List String).length →
      GetDiversificationScore (fun _ _ => none) ["A", "B"] =
        1 - ((offDiagPairs ["A", "B"]).map
            fun p => |lookupCorr (fun _ _ => none) p.1 p.2|).sum /
          (((offDiagPairs ["A", "B"]).length : ℕ) : ℝ)) ∧
    (0 ≤ GetDiversificationScore (fun _ _ => none) ["A", "B"] ∧
      GetDiversificationScore (fun _ _ => none) ["A", "B"] ≤ 1) :=
  ⟨(getDiversificationScore_props (fun _ _ => none) ["A", "B"]).2.2.1,
   (getDiversificationScore_props (fun _ _ => none) ["A", "B"]).2.2.2
     (by intro a b v h; cases h)⟩

/-! ## Theorems: allocation engine -/

/-- The keep-between chain equals the clamp into [0.1, 2]. -/
lemma ifChain_eq_clampQ (f : ℚ) :
    (if f < 1/10 then (1 : ℚ)/10 else if f > 2 then 2 else f) = clampQ f (1/10) 2 := by
  unfold clampQ
  rw [max_def, min_def]
  split_ifs <;> linarith

/-- The performance factor is the clamp of 1 + performance/100. -/
lemma perfFactorClamped_eq (perf : ℚ) :
    perfFactorClamped perf = clampQ (1 + perf / 100) (1/10) 2 := by
  unfold perfFactorClamped
  simp only [clampQ, max_def, min_def]
  split_ifs <;> linarith

/-- The volatility factor is the clamp of 1/(1 + volatility*100). -/
lemma volFactorClamped_eq (rv : ℚ) :
    volFactorClamped rv = clampQ (1 / (1 + rv * 100)) (1/10) 2 := by
  unfold volFactorClamped
  exact ifChain_eq_clampQ _

/-- C8 counterexample: at the spec's own example (base 0.1667, performance
EMA 50, recent volatility 0.01) the optimal allocation is exactly 0.1667 (the
volatility factor is 1/(1+0.01*100) = 0.5, not 0.990), more than 0.04 away
from the claimed 0.2075. -/
theorem optimalAllocation_spec_example_false :
    GetOptimalAllocation examplePM "BTCUSDT" = 1667/10000 ∧
    |(1667 : ℚ)/10000 - 2075/10000| > 4/100 := by
  constructor
  · simp only [GetOptimalAllocation, GetPerformanceBasedAllocation,
      GetVolatilityAdjustedAllocation, GetAllocation, examplePM,
      perfFactorClamped, volFactorClamped]
    norm_num
  · have habs : |(1667 : ℚ)/10000 - 2075/10000| = 51/1250 := by
      rw [abs_of_neg (by norm_num)]
      norm_num
    rw [habs]
    norm_num

/-- C8 (amended): the performance factor is clamp(1 + perf/100, 0.1, 2.0)
whenever performance data exists, the volatility factor is
clamp(1/(1 + vol*100), 0.1, 2.0) when the recent volatility is positive and 1
otherwise, every clamped factor stays within [0.1, 2.0], and the optimal
allocation is the average of the two adjusted allocations; at the spec's
example the result is exactly 0.1667, not 0.2075. -/
theorem optimalAllocation_factors_clamped (pm : PortfolioState) (s : String) :
    (∀ perf, pm.performance s = some perf →
      GetPerformanceBasedAllocation pm s =
        GetAllocation pm s * clampQ (1 + perf / 100) (1/10) 2) ∧
    (∀ vd, pm.volTracker s = some vd → 0 < vd.recentVolatility →
      GetVolatilityAdjustedAllocation pm s =
        GetAllocation pm s * clampQ (1 / (1 + vd.recentVolatility * 100)) (1/10) 2) ∧
    (∀ vd, pm.volTracker s = some vd → vd.recentVolatility ≤ 0 →
      GetVolatilityAdjustedAllocation pm s = GetAllocation pm s) ∧
    (∀ x : ℚ, 1/10 ≤ clampQ x (1/10) 2 ∧ clampQ x (1/10) 2 ≤ 2) ∧
    GetOptimalAllocation pm s =
      (GetPerformanceBasedAllocation pm s + GetVolatilityAdjustedAllocation pm s) / 2 := by
  refine ⟨?_, ?_, ?_, ?_, rfl⟩
  · intro perf h
    simp [GetPerformanceBasedAllocation, h, perfFactorClamped_eq]
  · intro vd h hrv
    simp [GetVolatilityAdjustedAllocation, h, hrv, volFactorClamped_eq]
  · intro vd h hle
    simp [GetVolatilityAdjustedAllocation, h, not_lt.2 hle]
  · intro x
    unfold clampQ
    exact ⟨le_max_left _ _, max_le (by norm_num) (min_le_left _ _)⟩

/-- Witness for the allocation theorem at the spec's example state. -/
theorem optimalAllocation_factors_clamped_witness :
    GetPerformanceBasedAllocation examplePM "BTCUSDT" =
      GetAllocation examplePM "BTCUSDT" * clampQ (1 + 50 / 100) (1/10) 2 ∧
    GetVolatilityAdjustedAllocation examplePM "BTCUSDT" =
      GetAllocation examplePM "BTCUSDT" *
        clampQ (1 / (1 + (1/100 : ℚ) * 100)) (1/10) 2 := by
  have h := optimalAllocation_factors_clamped examplePM "BTCUSDT"
  exact ⟨h.1 50 rfl, h.2.1 ⟨"BTCUSDT", 1/100, 0, "low"⟩ rfl (by norm_num)⟩

/-! ## Theorems: trading cycle failure isolation -/

/-- Everything stored by the fetch loop came from a successful fetch. -/
lemma mem_fetchLoop {fetch : String → Option MarketData} {l : List String}
    {p : String × MarketData} (hp : p ∈ fetchLoop l fetch) : fetch p.1 = some p.2 := by
  unfold fetchLoop at hp
  obtain ⟨x, _, hmap⟩ := List.mem_filterMap.1 hp
  obtain ⟨d, hfd, hpd⟩ := Option.map_eq_some'.1 hmap
  cases hpd
  exact hfd

/-- A symbol whose fetch failed has no entry in the marketData map. -/
lemma lookup_fetchLoop_none {fetch : String → Option MarketData} {s : String}
    (hfail : fetch s = none) :
    ∀ l : List String, List.lookup s (fetchLoop l fetch) = none := by
  intro l
  induction l with
  | nil => simp [fetchLoop]
  | cons a t ih =>
      unfold fetchLoop at ih ⊢
      cases hfa : fetch a with
      | none => simpa [List.filterMap_cons, hfa] using ih
      | some d =>
          simp only [List.filterMap_cons, hfa, Option.map_some']
          by_cases hsa : s = a
          · subst hsa
            rw [hfail] at hfa
            cases hfa
          · simpa [List.lookup, beq_eq_false_iff_ne.2 hsa] using ih

/-- A symbol in the loop whose fetch succeeded has an entry in the marketData
map. -/
lemma lookup_fetchLoop_isSome {fetch : String → Option MarketData} {s : String}
    {d : MarketData} (hd : fetch s = some d) :
    ∀ l : List String, s ∈ l → (List.lookup s (fetchLoop l fetch)).isSome = true := by
  intro l
  induction l with
  | nil => intro h; cases h
  | cons a t ih =>
      intro hmem
      unfold fetchLoop at ih ⊢
      by_cases hsa : s = a
      · subst hsa
        simp [List.filterMap_cons, hd, List.lookup]
      · have ht : s ∈ t := (List.mem_cons.1 hmem).resolve_left hsa
        cases hfa : fetch a with
        | none => simpa [List.filterMap_cons, hfa] using ih ht
        | some e =>
            simpa [List.filterMap_cons, hfa, List.lookup,
              beq_eq_false_iff_ne.2 hsa] using ih ht

/-- C9 counterexample: with symbol A failing its fetch and B succeeding, step
6 of runTradingCycle still selects (and records) a strategy for A, so "no
strategy selection happens for a skipped symbol" fails on the code. -/
theorem tradingCycle_failed_fetch_still_selects_strategy :
    fetchAB "A" = none ∧
    ("A", StrategyType.marketMaking) ∈
      (runCycleEffects ["A", "B"] fetchAB (fun _ => .marketMaking)).selections := by
  constructor
  · rfl
  · simp [runCycleEffects, fetchAB]

/-- C9 (amended): a symbol whose market-data fetch fails gets a warning and is
excluded from analysis (step 2) and from execution, trade logging and
performance update (steps 7-8), while every successfully fetched symbol goes
through all of those; however step 6 still records a strategy selection for
the failed symbol. -/
theorem tradingCycle_failed_fetch_isolation (symbols : List String)
    (fetch : String → Option MarketData) (selectFor : String → StrategyType)
    (s : String) (hs : s ∈ symbols) (hfail : fetch s = none) :
    s ∈ (runCycleEffects symbols fetch selectFor).fetchWarnings ∧
    s ∉ (runCycleEffects symbols fetch selectFor).analyzed ∧
    s ∉ (runCycleEffects symbols fetch selectFor).executed ∧
    s ∉ (runCycleEffects symbols fetch selectFor).tradesLogged ∧
    s ∉ (runCycleEffects symbols fetch selectFor).perfUpdated ∧
    (s, selectFor s) ∈ (runCycleEffects symbols fetch selectFor).selections ∧
    (∀ t ∈ symbols, (fetch t).isSome = true →
      t ∈ (runCycleEffects symbols fetch selectFor).analyzed ∧
      t ∈ (runCycleEffects symbols fetch selectFor).executed ∧
      t ∈ (runCycleEffects symbols fetch selectFor).tradesLogged ∧
      t ∈ (runCycleEffects symbols fetch selectFor).perfUpdated) := by
  have hnotdata : s ∉ (fetchLoop symbols fetch).map Prod.fst := by
    intro hmem
    obtain ⟨p, hp, hps⟩ := List.mem_map.1 hmem
    have := mem_fetchLoop hp
    rw [hps, hfail] at this
    cases this
  have hnotexec : s ∉ symbols.filter
      fun u => (List.lookup u (fetchLoop symbols fetch)).isSome := by
    intro hmem
    have hpred := (List.mem_filter.1 hmem).2
    rw [lookup_fetchLoop_none hfail symbols] at hpred
    cases hpred
  refine ⟨?_, hnotdata, hnotexec, hnotexec, hnotexec, ?_, ?_⟩
  · exact List.mem_filter.2 ⟨hs, by simp [hfail]⟩
  · exact List.mem_map.2 ⟨s, hs, rfl⟩
  · intro t ht hsome
    obtain ⟨d, hd⟩ := Option.isSome_iff_exists.1 hsome
    have hdata : t ∈ (fetchLoop symbols fetch).map Prod.fst := by
      refine List.mem_map.2 ⟨(t, d), ?_, rfl⟩
      unfold fetchLoop
      exact List.mem_filterMap.2 ⟨t, ht, by rw [hd]; rfl⟩
    have hexec : t ∈ symbols.filter
        fun u => (List.lookup u (fetchLoop symbols fetch)).isSome :=
      List.mem_filter.2 ⟨ht, lookup_fetchLoop_isSome hd symbols ht⟩
    exact ⟨hdata, hexec, hexec, hexec⟩

/-- Witness for the failure-isolation theorem on the concrete two-symbol
cycle. -/
theorem tradingCycle_failed_fetch_isolation_witness :
    "A" ∈ (runCycleEffects ["A", "B"] fetchAB (fun _ => .marketMaking)).fetchWarnings ∧
    "A" ∉ (runCycleEffects ["A", "B"] fetchAB (fun _ => .marketMaking)).analyzed ∧
    "A" ∉ (runCycleEffects ["A", "B"] fetchAB (fun _ => .marketMaking)).executed ∧
    "A" ∉ (runCycleEffects ["A", "B"] fetchAB (fun _ => .marketMaking)).tradesLogged ∧
    "A" ∉ (runCycleEffects ["A", "B"] fetchAB (fun _ => .marketMaking)).perfUpdated ∧
    ("A", StrategyType.marketMaking) ∈
      (runCycleEffects ["A", "B"] fetchAB (fun _ => .marketMaking)).selections ∧
    (∀ t ∈ (["A", "B"] : List String), (fetchAB t).isSome = true →
      t ∈ (runCycleEffects ["A", "B"] fetchAB (fun _ => .marketMaking)).analyzed ∧
      t ∈ (runCycleEffects ["A", "B"] fetchAB (fun _ => .marketMaking)).executed ∧
      t ∈ (runCycleEffects ["A", "B"] fetchAB (fun _ => .marketMaking)).tradesLogged ∧
      t ∈ (runCycleEffects ["A", "B"] fetchAB (fun _ => .marketMaking)).perfUpdated) :=
  tradingCycle_failed_fetch_isolation ["A", "B"] fetchAB (fun _ => .marketMaking) "A"
    (by simp) rfl
